import Mathlib

/-!
Verification of the gene perturbation simulator (`gene_cascade.py`).

The source has two functions:

* `get_total_influence(G, current_gene, target_gene, current_path_product,
  max_depth, current_depth)` — a depth-bounded recursive walk-sum over a
  directed weighted graph;
* `compute_gene_effect(edge_list, initial_levels, source_gene,
  modified_level, max_depth)` — the orchestration that builds the graph,
  computes the shock, and assembles the output dictionary.

Real numbers (Python floats) are modelled as exact rationals `ℚ`; Python
`int` is modelled as `ℤ`.  Python dictionaries are modelled as association
lists where an assignment `d[k] = v` conses `(k, v)` in front and lookup
takes the most recent binding.  A raised, uncaught Python exception is
modelled as the value `none` of an `Option` result.
-/

namespace GeneCascade

/-- The graph object handed to `get_total_influence`: for each vertex the
list of its out-neighbours (igraph's `G.successors`, one entry per edge)
and the weight retrieved for an ordered pair by
`G.es[G.get_eid(u, v)]['weight']`. -/
structure Graph (V : Type) where
  succ : V → List V
  weight : V → V → ℚ

/-- The recursion of `get_total_influence` indexed by its fuel
`max 0 (max_depth + 1 - current_depth)`: fuel `0` is the guard
`current_depth > max_depth` (return `0.0`), and at fuel `k + 1` the loop
body over the successors of `current` adds, for each neighbour, the new
path product when the neighbour is the target, plus the unconditional
recursive call at depth `current_depth + 1` (fuel `k`). -/
def influenceGo {V : Type} [DecidableEq V] (G : Graph V) (target_gene : V) :
    Nat → V → ℚ → ℚ
  | 0, _, _ => 0
  | fuel + 1, current_gene, current_path_product =>
      ((G.succ current_gene).map (fun neighbor_gene =>
        (if neighbor_gene = target_gene then
            current_path_product * G.weight current_gene neighbor_gene
          else 0)
          + influenceGo G target_gene fuel neighbor_gene
              (current_path_product * G.weight current_gene neighbor_gene))).sum

/-- `get_total_influence` from `gene_cascade.py`.  The recursion stops as
soon as `current_depth > max_depth`, so the remaining number of allowed
steps is `(max_depth + 1 - current_depth).toNat`, which is the fuel of
`influenceGo`. -/
def get_total_influence {V : Type} [DecidableEq V] (G : Graph V)
    (current_gene target_gene : V) (current_path_product : ℚ)
    (max_depth current_depth : ℤ) : ℚ :=
  influenceGo G target_gene (max_depth + 1 - current_depth).toNat
    current_gene current_path_product

/-- Python dict lookup `d[k]` / `k in d`: the most recent binding of `k`. -/
def dlookup (d : List (String × ℚ)) (k : String) : Option ℚ :=
  (d.find? (fun p => p.1 == k)).map Prod.snd

/-- Python `d.get(k, 0.0)`. -/
def dget (d : List (String × ℚ)) (k : String) : ℚ :=
  (dlookup d k).getD 0

/-- Python dict assignment `d[k] = v`: the new binding shadows any older
one under `dlookup`. -/
def dinsert (d : List (String × ℚ)) (k : String) (v : ℚ) :
    List (String × ℚ) :=
  (k, v) :: d

/-- The vertex-name set of `compute_gene_effect`: every key of
`initial_levels` plus both endpoints of every edge (Python builds a `set`;
here a deduplicated list, which the loop iterates over). -/
def all_gene_names (edge_list : List (String × String × ℚ))
    (initial_levels : List (String × ℚ)) : List String :=
  (initial_levels.map Prod.fst
    ++ edge_list.foldr (fun e acc => e.1 :: e.2.1 :: acc) []).dedup

/-- The graph `ig.Graph.DictList(vertices, edges, directed=True)` as seen
through `successors` and `get_eid`: out-neighbours are the targets of the
edges leaving a vertex in input order, and the weight of an ordered pair
is the weight of the first matching edge. -/
def build_graph (edge_list : List (String × String × ℚ)) : Graph String where
  succ := fun v => (edge_list.filter (fun e => e.1 == v)).map (fun e => e.2.1)
  weight := fun u v =>
    ((edge_list.find? (fun e => e.1 == u && e.2.1 == v)).map
      (fun e => e.2.2)).getD 0

/-- igraph's `G.vs.find(name=...)`: `some` vertex handle when the name is
a vertex of the graph, `none` (an exception) otherwise. -/
def find_vertex (names : List String) (name : String) : Option String :=
  names.find? (fun v => v == name)

/-- `compute_gene_effect` from `gene_cascade.py`.  The result is `none`
exactly when the uncaught vertex lookup of `source_gene` (line
`G.vs.find(name=source_gene).index`) raises; the per-target lookup inside
the loop is wrapped in `try/except` and failure skips the target. -/
def compute_gene_effect (edge_list : List (String × String × ℚ))
    (initial_levels : List (String × ℚ)) (source_gene : String)
    (modified_level : ℚ) (max_depth : ℤ) : Option (List (String × ℚ)) :=
  let names := all_gene_names edge_list initial_levels
  let G := build_graph edge_list
  let initial_shock := modified_level - dget initial_levels source_gene
  let new_levels := dinsert initial_levels source_gene modified_level
  match find_vertex names source_gene with
  | none => none
  | some source_vid =>
      some (names.foldl (fun acc target_gene =>
        if target_gene = source_gene then acc
        else
          match find_vertex names target_gene with
          | none => acc
          | some target_vid =>
              let total_influence_factor :=
                get_total_influence G source_vid target_vid 1 max_depth 1
              let change := initial_shock * total_influence_factor
              dinsert acc target_gene
                (dget initial_levels target_gene + change)) new_levels)

/-- The weighted adjacency matrix of the spec ("the sum of entries
`(W^1 + ... + W^maxDepth)[current, target]` where `W` is the weighted
adjacency matrix"): entry `(u, v)` is the weight of the edge `u → v`, and
`0` where there is no edge.  Stated from the spec's words, to be compared
with the enumeration implemented by `get_total_influence`. -/
def adjMatrix {V : Type} [DecidableEq V] [Fintype V] (G : Graph V) :
    Matrix V V ℚ :=
  Matrix.of fun u v => if v ∈ G.succ u then G.weight u v else 0

/-- `GWalk G u v n p`: there is a directed walk (vertices and edges may
repeat) of length `n` from `u` to `v` whose edge-weight product is `p`. -/
inductive GWalk {V : Type} (G : Graph V) : V → V → ℕ → ℚ → Prop where
  | nil (v : V) : GWalk G v v 0 1
  | cons {u w : V} (v : V) {n : ℕ} {p : ℚ} (hmem : v ∈ G.succ u)
      (hwalk : GWalk G v w n p) : GWalk G u w (n + 1) (G.weight u v * p)

/-- The edge list of the spec's concrete scenario (the `EDGES` of the
source's example driver). -/
def exEdges : List (String × String × ℚ) :=
  [("1", "4", 1.0), ("1", "5", 0.6), ("1", "6", 0.7), ("2", "4", 1.0),
   ("3", "4", 0.4), ("4", "3", 0.6), ("4", "8", 0.3), ("5", "6", 1.0),
   ("6", "7", 0.8)]

/-- All eight baseline levels `1.0` of the concrete scenario. -/
def exLevels : List (String × ℚ) :=
  [("1", 1.0), ("2", 1.0), ("3", 1.0), ("4", 1.0), ("5", 1.0), ("6", 1.0),
   ("7", 1.0), ("8", 1.0)]

/-- A graph with exactly one edge `0 → 1` of weight `w` and no other
edges. -/
def oneEdgeGraph (w : ℚ) : Graph (Fin 2) where
  succ := fun v => if v = 0 then [1] else []
  weight := fun u v => if u = 0 ∧ v = 1 then w else 0

/-- A graph on `{0, 1}` with a self-loop `0 → 0` of weight `1` (a cycle of
weight product `1`) and an exit edge `0 → 1` of weight `1`. -/
def loopGraph : Graph (Fin 2) where
  succ := fun v => if v = 0 then [0, 1] else []
  weight := fun _ _ => 1

/-- A graph on `{0, 1, 2, 3}` with two branches from the source `0` to the
target `3`: through `1` (self-loop of weight `1`, exit weight `1`) and
through `2` (self-loop of weight `1`, exit weight `-1`).  Walks through
the two branches cancel exactly at every length. -/
def cancelGraph : Graph (Fin 4) where
  succ := fun v =>
    if v = 0 then [1, 2] else if v = 1 then [1, 3] else if v = 2 then [2, 3]
    else []
  weight := fun u v => if u = 2 ∧ v = 3 then -1 else 1

/-- A one-edge string network used to instantiate the
`compute_gene_effect` theorems. -/
def wEdges : List (String × String × ℚ) := [("a", "b", 1)]

section InfluenceBasics

variable {V : Type} [DecidableEq V]

@[simp]
lemma influenceGo_zero (G : Graph V) (t c : V) (p : ℚ) :
    influenceGo G t 0 c p = 0 := rfl

lemma influenceGo_succ (G : Graph V) (t c : V) (p : ℚ) (fuel : ℕ) :
    influenceGo G t (fuel + 1) c p =
      ((G.succ c).map (fun nb =>
        (if nb = t then p * G.weight c nb else 0)
          + influenceGo G t fuel nb (p * G.weight c nb))).sum := rfl

/-- The fuel-indexed recursion unfolds exactly as the source recursion:
return `0.0` past the depth bound, otherwise loop over the successors,
record the walk that hits the target, and recurse unconditionally at
depth `current_depth + 1`. -/
lemma get_total_influence_eq (G : Graph V) (c t : V) (p : ℚ) (m d : ℤ) :
    get_total_influence G c t p m d =
      if m < d then 0
      else ((G.succ c).map (fun nb =>
        (if nb = t then p * G.weight c nb else 0)
          + get_total_influence G nb t (p * G.weight c nb) m (d + 1))).sum := by
  by_cases h : m < d
  · have h0 : (m + 1 - d).toNat = 0 := by omega
    simp [get_total_influence, h, h0]
  · have h1 : (m + 1 - d).toNat = (m + 1 - (d + 1)).toNat + 1 := by omega
    simp only [get_total_influence, h, if_false, h1, influenceGo_succ]

/-- `influenceGo` is linear in the path-product accumulator. -/
lemma influenceGo_mul (G : Graph V) (t : V) :
    ∀ (fuel : ℕ) (c : V) (p : ℚ),
      influenceGo G t fuel c p = p * influenceGo G t fuel c 1 := by
  intro fuel
  induction fuel with
  | zero => intro c p; simp
  | succ k ih =>
    intro c p
    simp only [influenceGo_succ]
    rw [← List.sum_map_mul_left]
    apply congrArg List.sum
    apply List.map_congr_left
    intro nb _
    rw [ih nb (p * G.weight c nb), ih nb (1 * G.weight c nb)]
    by_cases h : nb = t <;> simp [h] <;> ring

end InfluenceBasics

section Monotone

variable {V : Type} [DecidableEq V] {G : Graph V} {t : V}

/-- With non-negative edge weights and a non-negative accumulator, the
accumulated influence is non-negative. -/
lemma influenceGo_nonneg (hw : ∀ u v, v ∈ G.succ u → 0 ≤ G.weight u v) :
    ∀ (fuel : ℕ) (c : V) (p : ℚ), 0 ≤ p → 0 ≤ influenceGo G t fuel c p := by
  intro fuel
  induction fuel with
  | zero => intro c p _; simp
  | succ k ih =>
    intro c p hp
    rw [influenceGo_succ]
    apply List.sum_nonneg
    intro x hx
    obtain ⟨nb, hnb, rfl⟩ := List.mem_map.mp hx
    have hprod : 0 ≤ p * G.weight c nb :=
      mul_nonneg hp (hw c nb hnb)
    have hrec := ih nb (p * G.weight c nb) hprod
    positivity

/-- With non-negative edge weights, more fuel never decreases the
accumulated influence. -/
lemma influenceGo_mono (hw : ∀ u v, v ∈ G.succ u → 0 ≤ G.weight u v) :
    ∀ (f2 f1 : ℕ), f1 ≤ f2 → ∀ (c : V) (p : ℚ), 0 ≤ p →
      influenceGo G t f1 c p ≤ influenceGo G t f2 c p := by
  intro f2
  induction f2 with
  | zero =>
    intro f1 h1 c p hp
    interval_cases f1
    simp
  | succ k ih =>
    intro f1 h1 c p hp
    match f1 with
    | 0 => exact influenceGo_nonneg hw (k + 1) c p hp
    | g + 1 =>
      rw [influenceGo_succ, influenceGo_succ]
      apply List.sum_le_sum
      intro nb hnb
      have hprod : 0 ≤ p * G.weight c nb := mul_nonneg hp (hw c nb hnb)
      have := ih g (by omega) nb (p * G.weight c nb) hprod
      gcongr

end Monotone

section MatrixEquiv

variable {V : Type} [DecidableEq V] [Fintype V] {G : Graph V} {t : V}

@[simp]
lemma adjMatrix_apply (G : Graph V) (u v : V) :
    adjMatrix G u v = if v ∈ G.succ u then G.weight u v else 0 := rfl

lemma adjMatrix_nonneg (hw : ∀ u v, v ∈ G.succ u → 0 ≤ G.weight u v)
    (u v : V) : 0 ≤ adjMatrix G u v := by
  rw [adjMatrix_apply]
  split
  · exact hw u v (by assumption)
  · exact le_refl 0

lemma pow_apply_nonneg {W : Matrix V V ℚ} (hW : ∀ u v, 0 ≤ W u v) :
    ∀ (n : ℕ) (u v : V), 0 ≤ (W ^ n) u v := by
  intro n
  induction n with
  | zero =>
    intro u v
    rw [pow_zero]
    rw [Matrix.one_apply]
    split <;> norm_num
  | succ k ih =>
    intro u v
    rw [pow_succ, Matrix.mul_apply]
    apply Finset.sum_nonneg
    intro x _
    exact mul_nonneg (ih u x) (hW x v)

/-- The spec's matrix-power characterization: starting with path product
`1` and fuel `f`, the accumulated influence from `c` to `t` is
`∑ k < f, (W ^ (k + 1))[c, t]` for the weighted adjacency matrix `W`. -/
lemma influenceGo_one_eq_powSum (hnd : ∀ u, (G.succ u).Nodup) :
    ∀ (f : ℕ) (c : V),
      influenceGo G t f c 1 =
        ∑ k ∈ Finset.range f, (adjMatrix G ^ (k + 1)) c t := by
  intro f
  induction f with
  | zero => intro c; simp
  | succ n ih =>
    intro c
    have hterm : ((G.succ c).map (fun nb =>
        (if nb = t then 1 * G.weight c nb else 0)
          + influenceGo G t n nb (1 * G.weight c nb))).sum
        = ((G.succ c).map (fun nb => adjMatrix G c nb *
            ((if nb = t then (1 : ℚ) else 0)
              + ∑ k ∈ Finset.range n, (adjMatrix G ^ (k + 1)) nb t))).sum := by
      apply congrArg List.sum
      apply List.map_congr_left
      intro nb hnb
      rw [influenceGo_mul, ih nb]
      have hW : adjMatrix G c nb = G.weight c nb := by
        rw [adjMatrix_apply, if_pos hnb]
      rw [hW]
      by_cases h : nb = t
      · subst h; rw [if_pos rfl, if_pos rfl]; ring
      · rw [if_neg h, if_neg h]; ring
    have hvanish : ∀ x ∈ Finset.univ, x ∉ (G.succ c).toFinset →
        adjMatrix G c x * ((if x = t then (1 : ℚ) else 0)
          + ∑ k ∈ Finset.range n, (adjMatrix G ^ (k + 1)) x t) = 0 := by
      intro x _ hx
      rw [List.mem_toFinset] at hx
      simp [hx]
    rw [influenceGo_succ, hterm, ← List.sum_toFinset _ (hnd c),
      Finset.sum_subset (Finset.subset_univ _) hvanish]
    have hsplit : ∀ nb : V, adjMatrix G c nb *
        ((if nb = t then (1 : ℚ) else 0)
          + ∑ k ∈ Finset.range n, (adjMatrix G ^ (k + 1)) nb t)
        = (if nb = t then adjMatrix G c nb else 0)
          + adjMatrix G c nb
              * ∑ k ∈ Finset.range n, (adjMatrix G ^ (k + 1)) nb t := by
      intro nb
      by_cases h : nb = t
      · subst h; rw [if_pos rfl, if_pos rfl]; ring
      · rw [if_neg h, if_neg h]; ring
    simp only [hsplit]
    rw [Finset.sum_add_distrib]
    have h1 : (∑ nb : V, if nb = t then adjMatrix G c nb else 0)
        = adjMatrix G c t := by
      rw [Finset.sum_ite_eq' Finset.univ t (fun nb => adjMatrix G c nb)]
      simp
    have h2 : (∑ nb : V, adjMatrix G c nb
          * ∑ k ∈ Finset.range n, (adjMatrix G ^ (k + 1)) nb t)
        = ∑ k ∈ Finset.range n, (adjMatrix G ^ (k + 1 + 1)) c t := by
      simp only [Finset.mul_sum]
      rw [Finset.sum_comm]
      apply Finset.sum_congr rfl
      intro k _
      rw [pow_succ' (adjMatrix G) (k + 1), Matrix.mul_apply]
    rw [h1, h2, Finset.sum_range_succ']
    simp [add_comm]

end MatrixEquiv

section Walks

variable {V : Type} {G : Graph V}

/-- Walks compose: lengths add, weight products multiply. -/
lemma GWalk_trans : ∀ {u v : V} {m : ℕ} {p : ℚ}, GWalk G u v m p →
    ∀ {w : V} {n : ℕ} {q : ℚ}, GWalk G v w n q →
      GWalk G u w (m + n) (p * q) := by
  intro u v m p h1
  induction h1 with
  | nil x =>
    intro w n q h2
    simpa using h2
  | @cons a c b k r hmem hwalk ih =>
    intro w n q h2
    have h3 := GWalk.cons b hmem (ih h2)
    have e : k + 1 + n = k + n + 1 := by omega
    rw [e, mul_assoc]
    exact h3

/-- With strictly positive edge weights, every walk product is positive. -/
lemma GWalk_pos (hw : ∀ u v, v ∈ G.succ u → 0 < G.weight u v)
    {u v : V} {n : ℕ} {p : ℚ} (h : GWalk G u v n p) : 0 < p := by
  induction h with
  | nil x => norm_num
  | cons x hmem _ ih => exact mul_pos (hw _ _ hmem) ih

/-- Iterating a cycle `k` times gives a walk of length `k * l` and product
`g ^ k`. -/
lemma GWalk_cycle_pow {c : V} {l : ℕ} {g : ℚ} (h : GWalk G c c l g) :
    ∀ k : ℕ, GWalk G c c (k * l) (g ^ k) := by
  intro k
  induction k with
  | zero => simpa using GWalk.nil c
  | succ j ih =>
    have h2 := GWalk_trans ih h
    rw [Nat.succ_mul, pow_succ]
    exact h2

/-- With non-negative weights, the product of any single walk of length
`n` is dominated by the `(u, v)` entry of `W ^ n`. -/
lemma GWalk_le_pow [DecidableEq V] [Fintype V]
    (hw0 : ∀ u v, v ∈ G.succ u → 0 ≤ G.weight u v)
    {u v : V} {n : ℕ} {p : ℚ} (h : GWalk G u v n p) :
    p ≤ (adjMatrix G ^ n) u v := by
  induction h with
  | nil x =>
    rw [pow_zero, Matrix.one_apply_eq]
  | @cons a c b k r hmem hwalk ih =>
    rw [pow_succ', Matrix.mul_apply]
    have hWab : adjMatrix G a b = G.weight a b := by
      rw [adjMatrix_apply, if_pos hmem]
    have hterm : G.weight a b * r ≤ adjMatrix G a b * (adjMatrix G ^ k) b c := by
      rw [hWab]
      exact mul_le_mul_of_nonneg_left ih (hw0 a b hmem)
    refine hterm.trans ?_
    have hnn : ∀ x ∈ (Finset.univ : Finset V),
        0 ≤ adjMatrix G a x * (adjMatrix G ^ k) x c := by
      intro x _
      exact mul_nonneg (adjMatrix_nonneg (fun x y hy => hw0 x y hy) a x)
        (pow_apply_nonneg (adjMatrix_nonneg (fun x y hy => hw0 x y hy)) k x c)
    exact Finset.single_le_sum hnn (Finset.mem_univ b)

end Walks

section Unbounded

variable {V : Type} [DecidableEq V] {G : Graph V}

/-- A top-level call (`current_depth = 1`) with a `ℕ` depth bound runs on
fuel equal to the bound. -/
lemma get_total_influence_natdepth (G : Graph V) (s t : V) (p : ℚ) (D : ℕ) :
    get_total_influence G s t p (D : ℤ) 1 = influenceGo G t D s p := by
  unfold get_total_influence
  norm_num

/-- Monotonicity in `max_depth` of a top-level call, for non-negative
weights. -/
lemma get_total_influence_mono_depth
    (hw0 : ∀ u v, v ∈ G.succ u → 0 ≤ G.weight u v) (s t : V) {d1 d2 : ℤ}
    (h : d1 ≤ d2) :
    get_total_influence G s t 1 d1 1 ≤ get_total_influence G s t 1 d2 1 := by
  unfold get_total_influence
  exact influenceGo_mono hw0 _ _ (Int.toNat_le_toNat (by omega)) _ _
    (by norm_num)

/-- Core of the divergence property: positive weights, a cycle of weight
product `≥ 1` through `c`, a walk from `s` to `c` and a walk from `c` to
`t` make the top-level influence from `s` to `t` unbounded in the depth
bound. -/
lemma influence_unbounded [Fintype V]
    (hnd : ∀ u, (G.succ u).Nodup)
    (hw : ∀ u v, v ∈ G.succ u → 0 < G.weight u v)
    {s c t : V} {al l bl : ℕ} {a g b : ℚ}
    (w1 : GWalk G s c al a) (w2 : GWalk G c c l g) (w3 : GWalk G c t bl b)
    (hl : 1 ≤ l) (hg : 1 ≤ g) :
    ∀ B : ℚ, ∃ D : ℕ, B < get_total_influence G s t 1 (D : ℤ) 1 := by
  intro B
  have hw0 : ∀ u v, v ∈ G.succ u → 0 ≤ G.weight u v :=
    fun u v hv => (hw u v hv).le
  have ha : 0 < a := GWalk_pos hw w1
  have hb : 0 < b := GWalk_pos hw w3
  have hab : 0 < a * b := mul_pos ha hb
  set K : ℕ := ⌈B / (a * b)⌉₊ + 1 with hK
  refine ⟨al + K * l + bl, ?_⟩
  set W := adjMatrix G with hW
  set D : ℕ := al + K * l + bl with hD
  have hval : get_total_influence G s t 1 (D : ℤ) 1 =
      ∑ k ∈ Finset.range D, (W ^ (k + 1)) s t := by
    rw [get_total_influence_natdepth, influenceGo_one_eq_powSum hnd]
  -- index of the walk through the cycle iterated j times
  set e : ℕ → ℕ := fun j => al + j * l + bl - 1 with he
  have hlen : ∀ j, 1 ≤ j → 1 ≤ al + j * l + bl := by
    intro j hj
    have : 1 * 1 ≤ j * l := Nat.mul_le_mul hj hl
    omega
  have hmono : ∀ i j, i ≤ j → i * l ≤ j * l :=
    fun i j hij => Nat.mul_le_mul_right l hij
  have hinj : ∀ i ∈ Finset.Icc 1 K, ∀ j ∈ Finset.Icc 1 K, e i = e j → i = j := by
    intro i hi j hj hij
    simp only [he] at hij
    have hil := Nat.mul_le_mul (Finset.mem_Icc.mp hi).1 hl
    have hjl := Nat.mul_le_mul (Finset.mem_Icc.mp hj).1 hl
    have heq : i * l = j * l := by omega
    exact Nat.eq_of_mul_eq_mul_right (by omega) heq
  have hsub : (Finset.Icc 1 K).image e ⊆ Finset.range D := by
    intro x hx
    obtain ⟨j, hj, rfl⟩ := Finset.mem_image.mp hx
    obtain ⟨hj1, hjK⟩ := Finset.mem_Icc.mp hj
    have := hmono j K hjK
    have := hlen j hj1
    simp only [he, hD, Finset.mem_range]
    omega
  have hnonneg : ∀ k, 0 ≤ (W ^ (k + 1)) s t :=
    fun k => pow_apply_nonneg (adjMatrix_nonneg hw0) (k + 1) s t
  have hstep1 : ∑ k ∈ (Finset.Icc 1 K).image e, (W ^ (k + 1)) s t ≤
      ∑ k ∈ Finset.range D, (W ^ (k + 1)) s t :=
    Finset.sum_le_sum_of_subset_of_nonneg hsub (fun i _ _ => hnonneg i)
  have hstep2 : ∑ k ∈ (Finset.Icc 1 K).image e, (W ^ (k + 1)) s t =
      ∑ j ∈ Finset.Icc 1 K, (W ^ (e j + 1)) s t :=
    Finset.sum_image hinj
  have hstep3 : ∀ j ∈ Finset.Icc 1 K, a * b ≤ (W ^ (e j + 1)) s t := by
    intro j hj
    obtain ⟨hj1, _⟩ := Finset.mem_Icc.mp hj
    have hwfull : GWalk G s t (al + j * l + bl) (a * g ^ j * b) :=
      GWalk_trans (GWalk_trans w1 (GWalk_cycle_pow w2 j)) w3
    have hidx : e j + 1 = al + j * l + bl := by
      have := hlen j hj1
      simp only [he]
      omega
    rw [hidx]
    refine le_trans ?_ (GWalk_le_pow hw0 hwfull)
    have hgj : 1 ≤ g ^ j := one_le_pow₀ hg
    nlinarith
  have hstep4 : (K : ℚ) * (a * b) ≤ ∑ j ∈ Finset.Icc 1 K, (W ^ (e j + 1)) s t := by
    calc (K : ℚ) * (a * b) = ∑ _j ∈ Finset.Icc 1 K, (a * b) := by
          rw [Finset.sum_const, Nat.card_Icc]
          simp [nsmul_eq_mul]
      _ ≤ _ := Finset.sum_le_sum hstep3
  have hB : B < (K : ℚ) * (a * b) := by
    have h1 : B / (a * b) ≤ (⌈B / (a * b)⌉₊ : ℚ) := Nat.le_ceil _
    have h2 : (⌈B / (a * b)⌉₊ : ℚ) < (K : ℚ) := by
      rw [hK]
      push_cast
      linarith
    have h3 : B / (a * b) < (K : ℚ) := lt_of_le_of_lt h1 h2
    calc B = B / (a * b) * (a * b) := by field_simp
      _ < (K : ℚ) * (a * b) := by
          exact mul_lt_mul_of_pos_right h3 hab
  rw [hval]
  calc B < (K : ℚ) * (a * b) := hB
    _ ≤ ∑ j ∈ Finset.Icc 1 K, (W ^ (e j + 1)) s t := hstep4
    _ = ∑ k ∈ (Finset.Icc 1 K).image e, (W ^ (k + 1)) s t := hstep2.symm
    _ ≤ ∑ k ∈ Finset.range D, (W ^ (k + 1)) s t := hstep1

end Unbounded

section ConcreteGraphs

/-- Vertex `1` of `oneEdgeGraph` has no successors, so no influence ever
accumulates from it. -/
lemma oneEdgeGraph_sink (w : ℚ) :
    ∀ (f : ℕ) (q : ℚ), influenceGo (oneEdgeGraph w) 1 f 1 q = 0 := by
  intro f q
  cases f with
  | zero => simp
  | succ k =>
    rw [influenceGo_succ]
    have hsucc : (oneEdgeGraph w).succ 1 = [] := rfl
    rw [hsucc]
    simp

/-- In `cancelGraph`, the target `3` is a sink. -/
lemma cancelGraph_sink :
    ∀ (f : ℕ) (q : ℚ), influenceGo cancelGraph 3 f 3 q = 0 := by
  intro f q
  cases f with
  | zero => simp
  | succ k =>
    rw [influenceGo_succ]
    have hsucc : cancelGraph.succ 3 = [] := rfl
    rw [hsucc]
    simp

/-- Closed form for the positive branch of `cancelGraph`: from vertex `1`
with accumulator `p`, the influence on `3` with fuel `f` is `f * p`. -/
lemma cancelGraph_branch_pos :
    ∀ (f : ℕ) (p : ℚ), influenceGo cancelGraph 3 f 1 p = (f : ℚ) * p := by
  intro f
  induction f with
  | zero => intro p; simp
  | succ k ih =>
    intro p
    rw [influenceGo_succ]
    have hsucc : cancelGraph.succ 1 = [1, 3] := rfl
    have hw11 : cancelGraph.weight 1 1 = 1 := rfl
    have hw13 : cancelGraph.weight 1 3 = 1 := rfl
    rw [hsucc]
    simp only [List.map_cons, List.map_nil, List.sum_cons, List.sum_nil,
      hw11, hw13, mul_one]
    rw [ih p, cancelGraph_sink]
    rw [if_neg (show ¬((1 : Fin 4) = 3) by decide)]
    simp only [if_true]
    push_cast
    ring

/-- Closed form for the negative branch of `cancelGraph`: from vertex `2`
with accumulator `p`, the influence on `3` with fuel `f` is `-(f * p)`. -/
lemma cancelGraph_branch_neg :
    ∀ (f : ℕ) (p : ℚ), influenceGo cancelGraph 3 f 2 p = -((f : ℚ) * p) := by
  intro f
  induction f with
  | zero => intro p; simp
  | succ k ih =>
    intro p
    rw [influenceGo_succ]
    have hsucc : cancelGraph.succ 2 = [2, 3] := rfl
    have hw22 : cancelGraph.weight 2 2 = 1 := rfl
    have hw23 : cancelGraph.weight 2 3 = -1 := rfl
    rw [hsucc]
    simp only [List.map_cons, List.map_nil, List.sum_cons, List.sum_nil,
      hw22, hw23, mul_one]
    rw [ih p, cancelGraph_sink]
    rw [if_neg (show ¬((2 : Fin 4) = 3) by decide)]
    simp only [if_true]
    push_cast
    ring

/-- The two branches of `cancelGraph` cancel exactly: the influence of
the source `0` on the target `3` is `0` at every depth. -/
lemma cancelGraph_zero (d : ℕ) :
    get_total_influence cancelGraph 0 3 1 (d : ℤ) 1 = 0 := by
  rw [get_total_influence_natdepth]
  cases d with
  | zero => simp
  | succ k =>
    rw [influenceGo_succ]
    have hsucc : cancelGraph.succ 0 = [1, 2] := rfl
    have hw01 : cancelGraph.weight 0 1 = 1 := rfl
    have hw02 : cancelGraph.weight 0 2 = 1 := rfl
    rw [hsucc]
    simp only [List.map_cons, List.map_nil, List.sum_cons, List.sum_nil,
      hw01, hw02, mul_one]
    rw [cancelGraph_branch_pos, cancelGraph_branch_neg]
    rw [if_neg (show ¬((1 : Fin 4) = 3) by decide),
      if_neg (show ¬((2 : Fin 4) = 3) by decide)]
    ring

end ConcreteGraphs

section Dicts

lemma dlookup_dinsert (d : List (String × ℚ)) (k : String) (v : ℚ)
    (t : String) :
    dlookup (dinsert d k v) t = if k = t then some v else dlookup d t := by
  by_cases h : k = t
  · subst h
    simp [dinsert, dlookup]
  · simp [dinsert, dlookup, h]

lemma dlookup_eq_none_of_not_mem_keys {d : List (String × ℚ)} {t : String}
    (h : t ∉ d.map Prod.fst) : dlookup d t = none := by
  have hfind : d.find? (fun p => p.1 == t) = none := by
    rw [List.find?_eq_none]
    intro p hp
    simp only [beq_iff_eq]
    intro hpt
    exact h (List.mem_map.mpr ⟨p, hp, hpt⟩)
  rw [dlookup, hfind]
  rfl

lemma find_vertex_of_mem {names : List String} {x : String}
    (h : x ∈ names) : find_vertex names x = some x := by
  induction names with
  | nil => cases h
  | cons y ys ih =>
    by_cases hyx : y = x
    · subst hyx
      simp [find_vertex]
    · have hx : x ∈ ys := by
        rcases List.mem_cons.mp h with h1 | h1
        · exact absurd h1.symm hyx
        · exact h1
      rw [find_vertex, List.find?_cons_of_neg, ← find_vertex]
      · exact ih hx
      · simp [hyx]

lemma find_vertex_of_not_mem {names : List String} {x : String}
    (h : x ∉ names) : find_vertex names x = none := by
  rw [find_vertex, List.find?_eq_none]
  intro v hv
  simp only [beq_iff_eq]
  intro hvx
  exact h (hvx ▸ hv)

/-- Membership in the vertex-name set of `compute_gene_effect`. -/
lemma mem_all_gene_names_iff (e : List (String × String × ℚ))
    (l : List (String × ℚ)) (t : String) :
    t ∈ all_gene_names e l ↔
      t ∈ l.map Prod.fst ∨ ∃ ed ∈ e, ed.1 = t ∨ ed.2.1 = t := by
  have hends : ∀ es : List (String × String × ℚ),
      t ∈ es.foldr (fun ed acc => ed.1 :: ed.2.1 :: acc) [] ↔
        ∃ ed ∈ es, ed.1 = t ∨ ed.2.1 = t := by
    intro es
    induction es with
    | nil => simp
    | cons ed es ih =>
      simp only [List.foldr_cons, List.mem_cons, ih, List.mem_cons]
      constructor
      · rintro (h | h | ⟨x, hx, hor⟩)
        · exact ⟨ed, Or.inl rfl, Or.inl h.symm⟩
        · exact ⟨ed, Or.inl rfl, Or.inr h.symm⟩
        · exact ⟨x, Or.inr hx, hor⟩
      · rintro ⟨x, hx | hx, hor⟩
        · subst hx
          rcases hor with h | h
          · exact Or.inl h.symm
          · exact Or.inr (Or.inl h.symm)
        · exact Or.inr (Or.inr ⟨x, hx, hor⟩)
  rw [all_gene_names, List.mem_dedup, List.mem_append, hends]

lemma mem_names_of_mem_keys {e : List (String × String × ℚ)}
    {l : List (String × ℚ)} {t : String} (h : t ∈ l.map Prod.fst) :
    t ∈ all_gene_names e l :=
  (mem_all_gene_names_iff e l t).mpr (Or.inl h)

end Dicts

section EffectCharacterization

/-- Lookup after the per-target update loop of `compute_gene_effect`:
a name visited by the loop (and distinct from the source) holds its
computed value; any other name still holds its value from the initial
dictionary. -/
lemma foldl_update_lookup (names : List String) (s : String)
    (val : String → String → ℚ) :
    ∀ (sub : List String) (acc : List (String × ℚ)) (t : String),
      (∀ x ∈ sub, x ∈ names) →
      dlookup (sub.foldl (fun acc tg =>
        if tg = s then acc
        else
          match find_vertex names tg with
          | none => acc
          | some tv => dinsert acc tg (val tg tv)) acc) t =
        if t ∈ sub ∧ t ≠ s then some (val t t) else dlookup acc t := by
  intro sub
  induction sub with
  | nil =>
    intro acc t _
    simp
  | cons x xs ih =>
    intro acc t hmem
    rw [List.foldl_cons]
    have hx : x ∈ names := hmem x (List.mem_cons_self x xs)
    have hxs' : ∀ y ∈ xs, y ∈ names :=
      fun y hy => hmem y (List.mem_cons_of_mem x hy)
    by_cases hxeq : x = s
    · rw [if_pos hxeq, ih acc t hxs']
      by_cases hts : t = s
      · simp [hts]
      · by_cases htx : t ∈ xs
        · simp [htx, hts, List.mem_cons]
        · have hnc : ¬(t ∈ x :: xs ∧ t ≠ s) := by
            rintro ⟨hc, -⟩
            rcases List.mem_cons.mp hc with h1 | h1
            · exact hts (h1.trans hxeq)
            · exact htx h1
          rw [if_neg (fun hh => htx hh.1), if_neg hnc]
    · rw [if_neg hxeq, find_vertex_of_mem hx,
        ih (dinsert acc x (val x x)) t hxs', dlookup_dinsert]
      by_cases h1 : t ∈ xs ∧ t ≠ s
      · simp [h1, h1.1, h1.2, List.mem_cons]
      · by_cases h2 : x = t
        · subst h2
          have hc : x ∈ x :: xs ∧ x ≠ s := ⟨List.mem_cons_self x xs, hxeq⟩
          simp [h1, hc, hxeq]
        · have hc : ¬(t ∈ x :: xs ∧ t ≠ s) := by
            rintro ⟨hm, hts⟩
            rcases List.mem_cons.mp hm with h3 | h3
            · exact h2 h3.symm
            · exact h1 ⟨h3, hts⟩
          rw [if_neg h1, if_neg h2, if_neg hc]

/-- Full characterization of `compute_gene_effect` when the source gene is
a vertex: the call succeeds, the source maps to `modified_level`, every
other vertex name maps to
`baseline + (modified_level - source baseline) * influence`, and nothing
else is in the result. -/
lemma compute_gene_effect_lookup (e : List (String × String × ℚ))
    (l : List (String × ℚ)) (s : String) (m : ℚ) (md : ℤ)
    (hs : s ∈ all_gene_names e l) :
    ∃ res, compute_gene_effect e l s m md = some res ∧
      ∀ t, dlookup res t =
        if t = s then some m
        else if t ∈ all_gene_names e l then
          some (dget l t + (m - dget l s) *
            get_total_influence (build_graph e) s t 1 md 1)
        else none := by
  rw [compute_gene_effect]
  rw [find_vertex_of_mem hs]
  refine ⟨_, rfl, ?_⟩
  intro t
  rw [foldl_update_lookup (all_gene_names e l) s
    (fun tg tv => dget l tg +
      (m - dget l s) * get_total_influence (build_graph e) s tv 1 md 1)
    (all_gene_names e l) (dinsert l s m) t (fun x hx => hx)]
  by_cases hts : t = s
  · subst hts
    rw [if_neg (by simp), if_pos rfl, dlookup_dinsert, if_pos rfl]
  · by_cases htn : t ∈ all_gene_names e l
    · rw [if_pos ⟨htn, hts⟩, if_neg hts, if_pos htn]
    · rw [if_neg (by simp [htn]), if_neg hts, if_neg htn, dlookup_dinsert,
        if_neg (fun h => hts h.symm)]
      exact dlookup_eq_none_of_not_mem_keys
        (fun hk => htn (mem_names_of_mem_keys hk))

end EffectCharacterization

section MoreHelpers

lemma sum_range_shift (f : ℕ → ℚ) (D : ℕ) :
    ∑ k ∈ Finset.range D, f (k + 1) = ∑ k ∈ Finset.Icc 1 D, f k := by
  induction D with
  | zero => simp
  | succ n ih =>
    rw [Finset.sum_range_succ, ih, Finset.sum_Icc_succ_top (by omega)]

/-- A successful `compute_gene_effect` call forces the source gene to be a
vertex (otherwise the uncaught top-level lookup raises). -/
lemma compute_gene_effect_source_mem {e : List (String × String × ℚ)}
    {l : List (String × ℚ)} {s : String} {m : ℚ} {md : ℤ}
    {res : List (String × ℚ)}
    (hres : compute_gene_effect e l s m md = some res) :
    s ∈ all_gene_names e l := by
  by_contra hs
  rw [compute_gene_effect] at hres
  rw [find_vertex_of_not_mem hs] at hres
  exact Option.noConfusion hres

end MoreHelpers

section Claims

/-- C1: for every finite directed weighted graph (successor lists without
duplicates, i.e. edge sets) with weighted adjacency matrix `W`, every
vertex pair and every `maxDepth D ≥ 1`,
`totalInfluence(graph, source, target, 1.0, D, 1)` equals the
`(source, target)` entry of `W^1 + W^2 + ... + W^D`. -/
theorem total_influence_eq_matrix_power_sum {V : Type} [DecidableEq V]
    [Fintype V] (G : Graph V) (s t : V) (D : ℕ)
    (hnd : ∀ u, (G.succ u).Nodup) (_hD : 1 ≤ D) :
    get_total_influence G s t 1 (D : ℤ) 1 =
      ∑ k ∈ Finset.Icc 1 D, (adjMatrix G ^ k) s t := by
  rw [get_total_influence_natdepth, influenceGo_one_eq_powSum hnd,
    sum_range_shift (fun k => (adjMatrix G ^ k) s t) D]

/-- Witness for C1 at the one-edge graph with weight `2`, depth `1`. -/
theorem total_influence_eq_matrix_power_sum_witness :
    (∀ u, ((oneEdgeGraph 2).succ u).Nodup) ∧ 1 ≤ 1 ∧
      get_total_influence (oneEdgeGraph 2) 0 1 1 ((1 : ℕ) : ℤ) 1 =
        ∑ k ∈ Finset.Icc 1 1, (adjMatrix (oneEdgeGraph 2) ^ k) 0 1 :=
  ⟨by decide, le_rfl,
    total_influence_eq_matrix_power_sum (oneEdgeGraph 2) 0 1 1 (by decide)
      le_rfl⟩

/-- C10: `get_total_influence` is homogeneous (linear) in its
`current_path_product` argument. -/
theorem total_influence_homogeneous {V : Type} [DecidableEq V] (G : Graph V)
    (c t : V) (p : ℚ) (m d : ℤ) :
    get_total_influence G c t p m d = p * get_total_influence G c t 1 m d := by
  unfold get_total_influence
  exact influenceGo_mul G t _ c p

/-- C8: the embedding of `get_total_influence` is a total function (its
fuel `(max_depth + 1 - current_depth).toNat` strictly decreases), and in
particular `current_depth > max_depth`, as well as a top-level call with
`max_depth ≤ 0` (so `max_depth = 0` and every negative `max_depth`),
returns exactly `0.0` for every graph and query. -/
theorem total_influence_total (V : Type) [DecidableEq V] (G : Graph V)
    (c t : V) (p : ℚ) (m d : ℤ) :
    (m < d → get_total_influence G c t p m d = 0) ∧
    (m ≤ 0 → get_total_influence G c t p m 1 = 0) := by
  constructor
  · intro h
    unfold get_total_influence
    rw [show (m + 1 - d).toNat = 0 from by omega]
    simp
  · intro h
    unfold get_total_influence
    rw [show (m + 1 - 1).toNat = 0 from by omega]
    simp

/-- Witness for C8: depth-exhausted and negative-depth queries on the
one-edge graph return `0.0`. -/
theorem total_influence_total_witness :
    (0 : ℤ) < 1 ∧ (-3 : ℤ) ≤ 0 ∧
      get_total_influence (oneEdgeGraph 1) 0 1 5 0 1 = 0 ∧
      get_total_influence (oneEdgeGraph 1) 0 1 5 (-3) 1 = 0 :=
  ⟨by norm_num, by norm_num,
    (total_influence_total (Fin 2) (oneEdgeGraph 1) 0 1 5 0 1).1 (by norm_num),
    (total_influence_total (Fin 2) (oneEdgeGraph 1) 0 1 5 (-3) 1).2
      (by norm_num)⟩

/-- C5: on the isolated edge `0 → 1` of weight `w`,
`totalInfluence(0, 1, 1.0, maxDepth, 1)` is exactly `w` for every
`maxDepth ≥ 1`, and exactly `0.0` for `maxDepth = 0`. -/
theorem total_influence_one_edge (w : ℚ) (md : ℤ) :
    (1 ≤ md → get_total_influence (oneEdgeGraph w) 0 1 1 md 1 = w) ∧
    get_total_influence (oneEdgeGraph w) 0 1 1 0 1 = 0 := by
  constructor
  · intro h
    unfold get_total_influence
    obtain ⟨k, hk⟩ : ∃ k, (md + 1 - 1).toNat = k + 1 :=
      ⟨(md - 1).toNat, by omega⟩
    rw [hk, influenceGo_succ]
    have hsucc : (oneEdgeGraph w).succ 0 = [1] := rfl
    have hw01 : (oneEdgeGraph w).weight 0 1 = w := by
      show (if (0 : Fin 2) = 0 ∧ (1 : Fin 2) = 1 then w else 0) = w
      rw [if_pos ⟨rfl, rfl⟩]
    rw [hsucc]
    simp only [List.map_cons, List.map_nil, List.sum_cons, List.sum_nil, hw01]
    simp only [if_true]
    rw [oneEdgeGraph_sink]
    ring
  · unfold get_total_influence
    rw [show ((0 : ℤ) + 1 - 1).toNat = 0 from by norm_num]
    simp

/-- Witness for C5 at weight `7/2` and depth `3`. -/
theorem total_influence_one_edge_witness :
    (1 : ℤ) ≤ 3 ∧
      get_total_influence (oneEdgeGraph (7 / 2)) 0 1 1 3 1 = 7 / 2 :=
  ⟨by norm_num, (total_influence_one_edge (7 / 2) 3).1 (by norm_num)⟩

/-- C6: with all edge weights non-negative, increasing `maxDepth` never
decreases `totalInfluence(A, B, 1.0, ·, 1)`. -/
theorem total_influence_depth_mono {V : Type} [DecidableEq V] (G : Graph V)
    (A B : V) (d1 d2 : ℤ)
    (hw : ∀ u v, v ∈ G.succ u → 0 ≤ G.weight u v) (h : d1 ≤ d2) :
    get_total_influence G A B 1 d1 1 ≤ get_total_influence G A B 1 d2 1 :=
  get_total_influence_mono_depth hw A B h

/-- Witness for C6 at the one-edge graph with weight `2`, depths `1 ≤ 2`. -/
theorem total_influence_depth_mono_witness :
    (∀ u v, v ∈ (oneEdgeGraph 2).succ u → 0 ≤ (oneEdgeGraph 2).weight u v) ∧
    (1 : ℤ) ≤ 2 ∧
    get_total_influence (oneEdgeGraph 2) 0 1 1 1 1 ≤
      get_total_influence (oneEdgeGraph 2) 0 1 1 2 1 :=
  ⟨by decide, by norm_num,
    total_influence_depth_mono (oneEdgeGraph 2) 0 1 1 2 (by decide)
      (by norm_num)⟩

/-- C7 (amended): with all edge weights strictly positive and
successor lists without duplicates, a cycle of weight product `≥ 1`
through a vertex `c` with a walk from the source to `c` and a walk from
`c` to the target makes `totalInfluence(source, target, 1.0, ·, 1)`
unbounded in `maxDepth`, and for every depth there is a strictly larger
depth with a strictly larger value. -/
theorem total_influence_cycle_divergence {V : Type} [DecidableEq V]
    [Fintype V] (G : Graph V) (s c t : V) (al l bl : ℕ) (a g b : ℚ)
    (hnd : ∀ u, (G.succ u).Nodup)
    (hw : ∀ u v, v ∈ G.succ u → 0 < G.weight u v)
    (w1 : GWalk G s c al a) (w2 : GWalk G c c l g) (w3 : GWalk G c t bl b)
    (hl : 1 ≤ l) (hg : 1 ≤ g) :
    (∀ B : ℚ, ∃ D : ℕ, B < get_total_influence G s t 1 (D : ℤ) 1) ∧
    (∀ d : ℕ, ∃ d2 : ℕ, d < d2 ∧
      get_total_influence G s t 1 (d : ℤ) 1 <
        get_total_influence G s t 1 (d2 : ℤ) 1) := by
  have hunb := influence_unbounded hnd hw w1 w2 w3 hl hg
  refine ⟨hunb, ?_⟩
  intro d
  obtain ⟨D, hD⟩ := hunb (get_total_influence G s t 1 (d : ℤ) 1)
  refine ⟨max D (d + 1), ?_, ?_⟩
  · exact lt_of_lt_of_le (Nat.lt_succ_self d) (le_max_right D (d + 1))
  · refine lt_of_lt_of_le hD ?_
    apply get_total_influence_mono_depth (fun u v hv => (hw u v hv).le)
    exact_mod_cast le_max_left D (d + 1)

/-- Counterexample to C7 as stated: `cancelGraph` contains the cycle
`1 → 1` of weight product `1 ≥ 1`, lying on the walk `0 → 1 → 3` from the
source `0` to the target `3`, yet the total influence from `0` to `3` is
`0` at depth `50`, at depth `100`, and exceeds no bound: the negative
branch through vertex `2` cancels the positive one exactly. -/
theorem total_influence_cycle_divergence_cex :
    GWalk cancelGraph 0 1 1 1 ∧ GWalk cancelGraph 1 1 1 1 ∧
    GWalk cancelGraph 1 3 1 1 ∧ (1 : ℚ) ≤ 1 ∧
    get_total_influence cancelGraph 0 3 1 50 1 = 0 ∧
    get_total_influence cancelGraph 0 3 1 100 1 = 0 ∧
    ¬ (∀ B : ℚ, ∃ D : ℕ,
        B < get_total_influence cancelGraph 0 3 1 (D : ℤ) 1) := by
  have h01 : GWalk cancelGraph 0 1 1 1 := by
    have h : GWalk cancelGraph 0 1 (0 + 1) (cancelGraph.weight 0 1 * 1) :=
      GWalk.cons 1 (by decide) (GWalk.nil 1)
    simpa using h
  have h11 : GWalk cancelGraph 1 1 1 1 := by
    have h : GWalk cancelGraph 1 1 (0 + 1) (cancelGraph.weight 1 1 * 1) :=
      GWalk.cons 1 (by decide) (GWalk.nil 1)
    simpa using h
  have h13 : GWalk cancelGraph 1 3 1 1 := by
    have h : GWalk cancelGraph 1 3 (0 + 1) (cancelGraph.weight 1 3 * 1) :=
      GWalk.cons 3 (by decide) (GWalk.nil 3)
    simpa using h
  refine ⟨h01, h11, h13, le_rfl, ?_, ?_, ?_⟩
  · exact_mod_cast cancelGraph_zero 50
  · exact_mod_cast cancelGraph_zero 100
  · intro h
    obtain ⟨D, hD⟩ := h 0
    rw [cancelGraph_zero D] at hD
    exact lt_irrefl 0 hD

/-- Witness for the amended C7 at `loopGraph` (self-loop of gain `1` at
the source, exit edge to the target). -/
theorem total_influence_cycle_divergence_witness :
    (∀ u, (loopGraph.succ u).Nodup) ∧
    (∀ u v, v ∈ loopGraph.succ u → 0 < loopGraph.weight u v) ∧
    GWalk loopGraph 0 0 1 1 ∧ GWalk loopGraph 0 1 1 1 ∧
    (∀ B : ℚ, ∃ D : ℕ, B < get_total_influence loopGraph 0 1 1 (D : ℤ) 1) := by
  have hcyc : GWalk loopGraph 0 0 1 1 := by
    have h : GWalk loopGraph 0 0 (0 + 1) (loopGraph.weight 0 0 * 1) :=
      GWalk.cons 0 (by decide) (GWalk.nil 0)
    simpa using h
  have hexit : GWalk loopGraph 0 1 1 1 := by
    have h : GWalk loopGraph 0 1 (0 + 1) (loopGraph.weight 0 1 * 1) :=
      GWalk.cons 1 (by decide) (GWalk.nil 1)
    simpa using h
  refine ⟨by decide, by decide, hcyc, hexit, ?_⟩
  exact (total_influence_cycle_divergence loopGraph 0 0 1 0 1 1 1 1 1
    (by decide) (by decide) (GWalk.nil 0) hcyc hexit le_rfl le_rfl).1

/-- C2: the concrete scenario — edges `EDGES`, all baselines `1.0`,
source `"1"`, modified level `1.5`, depth `2` — yields the mapping
`"1" ↦ 1.5, "2" ↦ 1.0, "3" ↦ 1.3, "4" ↦ 1.5, "5" ↦ 1.3, "6" ↦ 1.65,
"7" ↦ 1.28, "8" ↦ 1.15`. -/
theorem compute_gene_effect_concrete_scenario :
    (compute_gene_effect exEdges exLevels "1" 1.5 2).map
      (fun res => (dlookup res "1", dlookup res "2", dlookup res "3",
        dlookup res "4", dlookup res "5", dlookup res "6", dlookup res "7",
        dlookup res "8")) =
    some (some 1.5, some 1.0, some 1.3, some 1.5, some 1.3, some 1.65,
      some 1.28, some 1.15) := by
  obtain ⟨res, hres, hchar⟩ :=
    compute_gene_effect_lookup exEdges exLevels "1" 1.5 2 (by decide)
  rw [hres]
  simp only [Option.map_some']
  rw [hchar "1", hchar "2", hchar "3", hchar "4", hchar "5", hchar "6",
    hchar "7", hchar "8"]
  rw [if_pos rfl,
    if_neg (show ("2" : String) ≠ "1" by decide),
    if_pos (show "2" ∈ all_gene_names exEdges exLevels by decide),
    if_neg (show ("3" : String) ≠ "1" by decide),
    if_pos (show "3" ∈ all_gene_names exEdges exLevels by decide),
    if_neg (show ("4" : String) ≠ "1" by decide),
    if_pos (show "4" ∈ all_gene_names exEdges exLevels by decide),
    if_neg (show ("5" : String) ≠ "1" by decide),
    if_pos (show "5" ∈ all_gene_names exEdges exLevels by decide),
    if_neg (show ("6" : String) ≠ "1" by decide),
    if_pos (show "6" ∈ all_gene_names exEdges exLevels by decide),
    if_neg (show ("7" : String) ≠ "1" by decide),
    if_pos (show "7" ∈ all_gene_names exEdges exLevels by decide),
    if_neg (show ("8" : String) ≠ "1" by decide),
    if_pos (show "8" ∈ all_gene_names exEdges exLevels by decide)]
  simp [dget, dlookup, exLevels, get_total_influence_eq, build_graph, exEdges]
  norm_num

/-- C3: every level in the result of `compute_gene_effect` is an affine
function of `modified_level`:
`newLevel(t) = baseline(t) + (modified_level - baseline(source)) * coeff`
where the coefficient (`1` for the source itself, the walk-sum influence
for any other gene) does not depend on `modified_level`, and baselines
default to `0.0` when absent. -/
theorem compute_gene_effect_affine (e : List (String × String × ℚ))
    (l : List (String × ℚ)) (s : String) (m : ℚ) (md : ℤ)
    (res : List (String × ℚ)) (t : String) (v : ℚ)
    (hres : compute_gene_effect e l s m md = some res)
    (hv : dlookup res t = some v) :
    v = dget l t + (m - dget l s) *
      (if t = s then 1
        else get_total_influence (build_graph e) s t 1 md 1) := by
  have hs : s ∈ all_gene_names e l := compute_gene_effect_source_mem hres
  obtain ⟨res2, hres2, hchar⟩ := compute_gene_effect_lookup e l s m md hs
  rw [hres] at hres2
  injection hres2 with hh
  subst hh
  have hc := hchar t
  rw [hv] at hc
  by_cases hts : t = s
  · rw [if_pos hts] at hc
    injection hc with hvm
    subst hts
    rw [if_pos rfl, hvm, mul_one]
    ring
  · rw [if_neg hts] at hc
    by_cases htn : t ∈ all_gene_names e l
    · rw [if_pos htn] at hc
      injection hc with hvm
      rw [if_neg hts, hvm]
    · rw [if_neg htn] at hc
      exact absurd hc (by simp)

/-- Witness for C3 on the one-edge network `a → b` (weight `1`), empty
baselines, `modified_level = 2`, depth `1`. -/
theorem compute_gene_effect_affine_witness :
    compute_gene_effect wEdges [] "a" 2 1 = some [("b", 2), ("a", 2)] ∧
    dlookup [("b", (2 : ℚ)), ("a", 2)] "b" = some 2 ∧
    (2 : ℚ) = dget [] "b" + (2 - dget [] "a") *
      (if "b" = "a" then 1
        else get_total_influence (build_graph wEdges) "a" "b" 1 1 1) := by
  have h1 : compute_gene_effect wEdges [] "a" 2 1 =
      some [("b", 2), ("a", 2)] := by
    simp [compute_gene_effect, wEdges, all_gene_names, build_graph,
      find_vertex, dinsert, dget, dlookup, get_total_influence_eq]
  exact ⟨h1, by decide,
    compute_gene_effect_affine wEdges [] "a" 2 1 [("b", 2), ("a", 2)] "b" 2
      h1 (by decide)⟩

/-- Counterexample to C4 as stated: for a `source_gene` appearing nowhere
in `initial_levels` or the edge list, the uncaught top-level vertex lookup
fails, so `compute_gene_effect` does not return a mapping (the modelled
exception `none` escapes to the caller). -/
theorem compute_gene_effect_missing_source_raises :
    compute_gene_effect [] [] "x" 1 5 = none := by decide

/-- C4 (amended): whenever `source_gene` appears in `initial_levels` or in
the edge list, `compute_gene_effect` returns normally (per-target
resolution failures are recovered by skip-and-continue); in particular a
source missing from `initial_levels` has its baseline defaulted to `0.0`,
so the shock is just `modified_level`. -/
theorem compute_gene_effect_total_of_source_vertex
    (e : List (String × String × ℚ)) (l : List (String × ℚ)) (s : String)
    (m : ℚ) (md : ℤ)
    (hs : s ∈ l.map Prod.fst ∨ ∃ ed ∈ e, ed.1 = s ∨ ed.2.1 = s) :
    (compute_gene_effect e l s m md).isSome ∧
    (dlookup l s = none → ∀ res t,
      compute_gene_effect e l s m md = some res →
      t ∈ all_gene_names e l → t ≠ s →
      dlookup res t = some (dget l t + m *
        get_total_influence (build_graph e) s t 1 md 1)) := by
  have hs' : s ∈ all_gene_names e l := (mem_all_gene_names_iff e l s).mpr hs
  obtain ⟨res, hres, hchar⟩ := compute_gene_effect_lookup e l s m md hs'
  constructor
  · rw [hres]
    rfl
  · intro hnone res2 t hres2 htn hts
    rw [hres] at hres2
    injection hres2 with hh
    subst hh
    have hc := hchar t
    rw [if_neg hts, if_pos htn] at hc
    rw [hc]
    have hz : dget l s = 0 := by
      rw [dget, hnone]
      rfl
    rw [hz, sub_zero]

/-- Witness for the amended C4: source `"a"` occurs only as an edge
endpoint (empty baselines) and the call still succeeds. -/
theorem compute_gene_effect_total_of_source_vertex_witness :
    ("a" ∈ ([] : List (String × ℚ)).map Prod.fst ∨
      ∃ ed ∈ wEdges, ed.1 = "a" ∨ ed.2.1 = "a") ∧
    (compute_gene_effect wEdges [] "a" 2 1).isSome := by
  have hhyp : "a" ∈ ([] : List (String × ℚ)).map Prod.fst ∨
      ∃ ed ∈ wEdges, ed.1 = "a" ∨ ed.2.1 = "a" := by decide
  exact ⟨hhyp,
    (compute_gene_effect_total_of_source_vertex wEdges [] "a" 2 1 hhyp).1⟩

/-- C9: a returned mapping has an entry for every name in
`initial_levels` and for every edge endpoint; a vertex known only through
edges is included (its baseline is treated as `0.0` by `dget`). -/
theorem compute_gene_effect_covers (e : List (String × String × ℚ))
    (l : List (String × ℚ)) (s : String) (m : ℚ) (md : ℤ)
    (res : List (String × ℚ))
    (hres : compute_gene_effect e l s m md = some res) (t : String)
    (ht : t ∈ l.map Prod.fst ∨ ∃ ed ∈ e, ed.1 = t ∨ ed.2.1 = t) :
    (dlookup res t).isSome := by
  have hs : s ∈ all_gene_names e l := compute_gene_effect_source_mem hres
  obtain ⟨res2, hres2, hchar⟩ := compute_gene_effect_lookup e l s m md hs
  rw [hres] at hres2
  injection hres2 with hh
  subst hh
  have hmem : t ∈ all_gene_names e l := (mem_all_gene_names_iff e l t).mpr ht
  rw [hchar t]
  by_cases hts : t = s
  · rw [if_pos hts]
    rfl
  · rw [if_neg hts, if_pos hmem]
    rfl

/-- Witness for C9: gene `"b"`, known only as an edge target, gets an
entry. -/
theorem compute_gene_effect_covers_witness :
    compute_gene_effect wEdges [] "a" 2 1 = some [("b", 2), ("a", 2)] ∧
    ("b" ∈ ([] : List (String × ℚ)).map Prod.fst ∨
      ∃ ed ∈ wEdges, ed.1 = "b" ∨ ed.2.1 = "b") ∧
    (dlookup [("b", (2 : ℚ)), ("a", 2)] "b").isSome := by
  have h1 : compute_gene_effect wEdges [] "a" 2 1 =
      some [("b", 2), ("a", 2)] := by
    simp [compute_gene_effect, wEdges, all_gene_names, build_graph,
      find_vertex, dinsert, dget, dlookup, get_total_influence_eq]
  exact ⟨h1, by decide,
    compute_gene_effect_covers wEdges [] "a" 2 1 [("b", 2), ("a", 2)] h1 "b"
      (by decide)⟩

end Claims

end GeneCascade
